import Mathlib

/-!
Verification of the routing core of `app.py` (landmark-based campus navigation).

The development shallowly embeds the four core components of the source:

* Geo math: `haversine`, `bearing`, `turn_direction` (floats are modelled by `ℝ`,
  `math.atan2` by an explicit piecewise `atan2`, Python's `%` on floats by `pymod`,
  Python `int()` truncation by `pyInt`).
* Graph builder: `build_graph` over parsed GeoJSON-like features.  The Python
  function can raise `ValueError` (tuple unpacking of `name.split("-")`), so the
  embedding returns an `Option`.
* Path finder: `shortest_path`, a uniform-cost search whose priority queue
  (Python `heapq` of `(cost, node, path, geoms)` tuples, ordered lexicographically)
  is modelled by a list kept sorted under the same lexicographic order `entryLe`.
  Python's `defaultdict(list)` lookup is modelled by `lookupAdj` (missing keys
  yield `[]`; the side effect of inserting the key is unobservable to the search).
* Instruction synthesizer: `generate_instructions`.  Python list indexing can
  raise `IndexError`, so the embedding returns an `Option` and every indexing in
  the source becomes a fallible access.
-/

open Real

noncomputable section

/-- Coordinates are `(longitude, latitude)` pairs of floats, modelled as reals. -/
abbrev Coord : Type := ℝ × ℝ

/-- `math.radians`: degrees to radians. -/
def radians (d : ℝ) : ℝ := d * (Real.pi / 180)

/-- `math.degrees`: radians to degrees. -/
def degrees (r : ℝ) : ℝ := r * 180 / Real.pi

/-- Modelled from the C library function `math.atan2` that the source calls:
the usual piecewise definition in terms of `arctan`, with `atan2 0 0 = 0`. -/
def atan2 (y x : ℝ) : ℝ :=
  if 0 < x then Real.arctan (y / x)
  else if x < 0 then
    (if 0 ≤ y then Real.arctan (y / x) + Real.pi else Real.arctan (y / x) - Real.pi)
  else
    (if 0 < y then Real.pi / 2 else if y < 0 then -(Real.pi / 2) else 0)

/-- Python's `%` on floats with a positive modulus: `a - m * floor (a / m)`. -/
def pymod (a m : ℝ) : ℝ := a - m * (⌊a / m⌋ : ℤ)

/-- Python's `int()` on a float: truncation toward zero. -/
def pyInt (r : ℝ) : ℤ := if r < 0 then ⌈r⌉ else ⌊r⌋

/-- `haversine(a, b)` from the source: great-circle distance in metres. -/
def haversine (a b : Coord) : ℝ :=
  let R : ℝ := 6371000
  let phi1 := radians a.2
  let phi2 := radians b.2
  let dphi := radians (b.2 - a.2)
  let dlambda := radians (b.1 - a.1)
  let x := Real.sin (dphi / 2) ^ 2 +
    Real.cos phi1 * Real.cos phi2 * Real.sin (dlambda / 2) ^ 2
  2 * R * atan2 (Real.sqrt x) (Real.sqrt (1 - x))

/-- `bearing(a, b)` from the source: initial compass bearing in degrees. -/
def bearing (a b : Coord) : ℝ :=
  let lon1 := radians a.1
  let lat1 := radians a.2
  let lon2 := radians b.1
  let lat2 := radians b.2
  let dlon := lon2 - lon1
  let x := Real.sin dlon * Real.cos lat2
  let y := Real.cos lat1 * Real.sin lat2 - Real.sin lat1 * Real.cos lat2 * Real.cos dlon
  pymod (degrees (atan2 x y) + 360) 360

/-- The signed angular difference computed by `turn_direction` in the source. -/
def signedDiff (b1 b2 : ℝ) : ℝ := pymod (b2 - b1 + 540) 360 - 180

/-- `turn_direction(b1, b2)` from the source. -/
def turn_direction (b1 b2 : ℝ) : String :=
  if |signedDiff b1 b2| < 25 then "Go straight"
  else if 0 < signedDiff b1 b2 then "Turn right"
  else "Turn left"

/-! ### Basic facts about the geo helpers -/

theorem pymod_eq_fract (a : ℝ) : pymod a 360 = 360 * Int.fract (a / 360) := by
  unfold pymod Int.fract
  ring

theorem pymod_nonneg (a : ℝ) : 0 ≤ pymod a 360 := by
  rw [pymod_eq_fract]
  have := Int.fract_nonneg (a / 360)
  linarith

theorem pymod_lt (a : ℝ) : pymod a 360 < 360 := by
  rw [pymod_eq_fract]
  have := Int.fract_lt_one (a / 360)
  linarith

theorem signedDiff_mem (b1 b2 : ℝ) :
    -180 ≤ signedDiff b1 b2 ∧ signedDiff b1 b2 < 180 := by
  unfold signedDiff
  constructor
  · have := pymod_nonneg (b2 - b1 + 540)
    linarith
  · have := pymod_lt (b2 - b1 + 540)
    linarith

theorem signedDiff_self (b : ℝ) : signedDiff b b = 0 := by
  unfold signedDiff pymod
  rw [show (b - b + 540) / 360 = 3 / 2 by ring,
    show ⌊(3 / 2 : ℝ)⌋ = 1 by norm_num [Int.floor_eq_iff]]
  push_cast
  ring

theorem atan2_nonneg_of_nonneg {y x : ℝ} (hy : 0 ≤ y) : 0 ≤ atan2 y x := by
  unfold atan2
  rcases lt_trichotomy 0 x with hx | hx | hx
  · rw [if_pos hx]
    have h : (0 : ℝ) ≤ y / x := div_nonneg hy hx.le
    calc (0 : ℝ) = Real.arctan 0 := Real.arctan_zero.symm
      _ ≤ Real.arctan (y / x) := Real.arctan_strictMono.monotone h
  · subst hx
    rw [if_neg (lt_irrefl 0), if_neg (lt_irrefl 0)]
    rcases eq_or_lt_of_le hy with hy0 | hy0
    · rw [if_neg (hy0 ▸ lt_irrefl 0), if_neg (hy0 ▸ lt_irrefl 0)]
    · rw [if_pos hy0]
      positivity
  · rw [if_neg (not_lt.mpr hx.le), if_pos hx, if_pos hy]
    have := Real.neg_pi_div_two_lt_arctan (y / x)
    have hpi := Real.pi_pos
    linarith

theorem haversine_nonneg (a b : Coord) : 0 ≤ haversine a b := by
  unfold haversine
  have h := atan2_nonneg_of_nonneg (x := Real.sqrt
    (1 - (Real.sin (radians (b.2 - a.2) / 2) ^ 2 +
      Real.cos (radians a.2) * Real.cos (radians b.2) *
        Real.sin (radians (b.1 - a.1) / 2) ^ 2)))
    (Real.sqrt_nonneg (Real.sin (radians (b.2 - a.2) / 2) ^ 2 +
      Real.cos (radians a.2) * Real.cos (radians b.2) *
        Real.sin (radians (b.1 - a.1) / 2) ^ 2))
  positivity

theorem haversine_comm (a b : Coord) : haversine a b = haversine b a := by
  unfold haversine
  have h1 : ∀ u : ℝ, radians (-u) = -(radians u) := by
    intro u; unfold radians; ring
  have h2 : ∀ u : ℝ, Real.sin (radians (-u) / 2) ^ 2 = Real.sin (radians u / 2) ^ 2 := by
    intro u
    rw [h1, show -(radians u) / 2 = -(radians u / 2) by ring, Real.sin_neg, neg_sq]
  have ha : Real.sin (radians (a.2 - b.2) / 2) ^ 2 = Real.sin (radians (b.2 - a.2) / 2) ^ 2 := by
    rw [show a.2 - b.2 = -(b.2 - a.2) by ring, h2]
  have hb : Real.sin (radians (a.1 - b.1) / 2) ^ 2 = Real.sin (radians (b.1 - a.1) / 2) ^ 2 := by
    rw [show a.1 - b.1 = -(b.1 - a.1) by ring, h2]
  simp only
  rw [ha, hb, mul_comm (Real.cos (radians b.2)) (Real.cos (radians a.2))]

theorem haversine_self (a : Coord) : haversine a a = 0 := by
  unfold haversine
  simp only [sub_self]
  have h0 : radians 0 = 0 := by unfold radians; ring
  rw [h0]
  norm_num
  unfold atan2
  norm_num [Real.arctan_zero]

/-! ### Graph data, queue order, and the path finder -/

/-- A directed edge as stored in the Python adjacency lists: `(target, weight, polyline)`. -/
abbrev Edge : Type := String × ℝ × List Coord

/-- The graph: `defaultdict(list)` of adjacency lists, modelled as an association list. -/
abbrev Graph : Type := List (String × List Edge)

/-- A priority-queue entry, exactly the Python tuple `(cost, node, path, geoms)`. -/
abbrev Entry : Type := ℝ × String × List String × List (List Coord)

/-- Adjacency lookup.  `defaultdict(list)` yields `[]` for missing keys (its
side effect of inserting the key is unobservable to the search). -/
def lookupAdj (g : Graph) (n : String) : List Edge := (List.lookup n g).getD []

/-- The keys of the graph dictionary. -/
def keys (g : Graph) : List String := g.map Prod.fst

/-- Python's lexicographic comparison of lists (shorter prefixes compare less). -/
def lexLt (r : α → α → Prop) : List α → List α → Prop
  | _, [] => False
  | [], _ :: _ => True
  | a :: as, b :: bs => r a b ∨ (a = b ∧ lexLt r as bs)

/-- Python's lexicographic comparison of coordinate pairs. -/
def pairLt (p q : Coord) : Prop := p.1 < q.1 ∨ (p.1 = q.1 ∧ p.2 < q.2)

/-- Python's string comparison: lexicographic on the characters. -/
def strLt (s t : String) : Prop := lexLt (fun a b : Char => a < b) s.data t.data

/-- Python's comparison of the heap tuples `(cost, node, path, geoms)`:
lexicographic, component by component. -/
def entryLt (e f : Entry) : Prop :=
  e.1 < f.1 ∨ (e.1 = f.1 ∧ (strLt e.2.1 f.2.1 ∨ (e.2.1 = f.2.1 ∧
    (lexLt strLt e.2.2.1 f.2.2.1 ∨ (e.2.2.1 = f.2.2.1 ∧
      lexLt (lexLt pairLt) e.2.2.2 f.2.2.2)))))

/-- Reflexive closure of `entryLt`. -/
def entryLe (e f : Entry) : Prop := entryLt e f ∨ e = f

open Classical in
/-- Insertion into the sorted list that models the binary heap: since the heap
pops the minimum under the total order `entryLe`, its observable behaviour is
that of a sorted list. -/
def insertE (e : Entry) : List Entry → List Entry
  | [] => [e]
  | x :: xs => if entryLe e x then e :: x :: xs else x :: insertE e xs

/-- Pushing one entry per outgoing edge, as the Python inner `for` loop does. -/
def pushEdges (c : ℝ) (p : List String) (gs : List (List Coord))
    (adj : List Edge) (q : List Entry) : List Entry :=
  adj.foldl (fun q ed => insertE (c + ed.2.1, ed.1, p, gs ++ [ed.2.2]) q) q

theorem length_insertE (e : Entry) (l : List Entry) :
    (insertE e l).length = l.length + 1 := by
  induction l with
  | nil => rfl
  | cons x xs ih =>
    unfold insertE
    split
    · simp
    · simp [ih]

theorem length_pushEdges (c : ℝ) (p : List String) (gs : List (List Coord))
    (adj : List Edge) (q : List Entry) :
    (pushEdges c p gs adj q).length = q.length + adj.length := by
  induction adj generalizing q with
  | nil => rfl
  | cons ed adj ih =>
    unfold pushEdges at ih ⊢
    simp only [List.foldl_cons]
    rw [ih, length_insertE]
    simp only [List.length_cons]
    omega

theorem lookupAdj_eq_nil_of_not_mem (g : Graph) (n : String) (h : n ∉ keys g) :
    lookupAdj g n = [] := by
  induction g with
  | nil => rfl
  | cons pr rest ih =>
    simp only [keys, List.map_cons, List.mem_cons] at h
    push_neg at h
    have hbeq : (n == pr.1) = false := beq_eq_false_iff_ne.mpr h.1
    unfold lookupAdj
    simp only [List.lookup, hbeq]
    exact ih h.2

theorem mem_keys_of_lookupAdj_ne_nil (g : Graph) (n : String)
    (h : lookupAdj g n ≠ []) : n ∈ keys g := by
  by_contra hn
  exact h (lookupAdj_eq_nil_of_not_mem g n hn)

theorem length_filter_lt_of_false {α : Type} (p : α → Bool) :
    ∀ (l : List α), (∃ x ∈ l, p x = false) → (l.filter p).length < l.length := by
  intro l
  induction l with
  | nil => simp
  | cons a l ih =>
    rintro ⟨x, hx, hpx⟩
    by_cases hpa : p a = true
    · have hxl : x ∈ l := by
        rcases List.mem_cons.mp hx with rfl | h
        · rw [hpa] at hpx
          cases hpx
        · exact h
      have hlt := ih ⟨x, hxl, hpx⟩
      simp only [List.filter_cons, hpa, if_true, List.length_cons]
      omega
    · have hpa' : p a = false := by
        cases h : p a
        · rfl
        · exact absurd h hpa
      have hle := List.length_filter_le p l
      simp only [List.filter_cons, hpa', Bool.false_eq_true, if_false, List.length_cons]
      omega

theorem filter_cons_visited_factor (l : List String) (n : String) (v : List String) :
    l.filter (fun x => x ∉ n :: v) =
      (l.filter (fun x => x ∉ v)).filter (fun x => x ≠ n) := by
  rw [List.filter_filter]
  apply List.filter_congr
  intro x _
  simp [List.mem_cons]

theorem filter_cons_visited_le (l : List String) (n : String) (v : List String) :
    (l.filter (fun x => x ∉ n :: v)).length ≤ (l.filter (fun x => x ∉ v)).length := by
  rw [filter_cons_visited_factor]
  exact List.length_filter_le _ _

theorem filter_cons_visited_lt (l : List String) (n : String) (v : List String)
    (hn : n ∈ l) (hv : n ∉ v) :
    (l.filter (fun x => x ∉ n :: v)).length < (l.filter (fun x => x ∉ v)).length := by
  rw [filter_cons_visited_factor]
  apply length_filter_lt_of_false
  refine ⟨n, ?_, by simp⟩
  simp only [List.mem_filter, decide_eq_true_eq]
  exact ⟨hn, hv⟩

theorem filter_cons_visited_eq (l : List String) (n : String) (v : List String)
    (hn : n ∉ l) :
    l.filter (fun x => x ∉ n :: v) = l.filter (fun x => x ∉ v) := by
  apply List.filter_congr
  intro x hx
  have hxn : x ≠ n := fun h => hn (h ▸ hx)
  simp [List.mem_cons, hxn]

/-- The main loop of `shortest_path`: pop the minimum entry, skip visited
nodes, return on reaching `endN`, otherwise push one entry per outgoing edge. -/
def popLoop (g : Graph) (endN : String) (visited : List String) (pq : List Entry) :
    Option (List String × List (List Coord)) :=
  match pq with
  | [] => none
  | (c, n, p, gs) :: rest =>
    if h1 : n ∈ visited then popLoop g endN visited rest
    else if n = endN then some (p ++ [n], gs)
    else popLoop g endN (n :: visited)
      (pushEdges c (p ++ [n]) gs (lookupAdj g n) rest)
termination_by ((((keys g).filter (fun x => x ∉ visited)).length, pq.length) : ℕ ×ₗ ℕ)
decreasing_by
· exact Prod.Lex.right _ (by simp)
· by_cases hn : n ∈ keys g
  · exact Prod.Lex.left _ _ (filter_cons_visited_lt (keys g) n visited hn h1)
  · rw [filter_cons_visited_eq (keys g) n visited hn]
    apply Prod.Lex.right
    rw [length_pushEdges, lookupAdj_eq_nil_of_not_mem g n hn]
    simp

/-- `shortest_path(graph, start, end)` from the source.  `none` models the
Python return value `(None, None)`. -/
def shortest_path (g : Graph) (start endN : String) :
    Option (List String × List (List Coord)) :=
  popLoop g endN [] [(0, start, [], [])]

/-! ### The graph builder -/

/-- Python `str.lower()` (ASCII view, as the source data is ASCII). -/
def pyLower (s : String) : String := String.mk (s.data.map Char.toLower)

/-- Python `str.upper()`. -/
def pyUpper (s : String) : String := String.mk (s.data.map Char.toUpper)

/-- Python `str.capitalize()`: first character upper-cased, the rest lower-cased. -/
def pyCapitalize (s : String) : String :=
  match s.data with
  | [] => ""
  | c :: cs => String.mk (c.toUpper :: cs.map Char.toLower)

/-- Python `"-" in name` (a one-character substring test is a character test). -/
def containsDash (s : String) : Bool := s.data.contains '-'

/-- Python `name.split("-")`. -/
def pySplitDash (s : String) : List String := (s.data.splitOn '-').map String.mk

/-- Python `name.startswith(pre)`. -/
def pyStartsWith (s pre : String) : Bool := pre.data.isPrefixOf s.data

/-- Python `turn.replace(" ", "-")` (one-character pattern). -/
def pyReplaceSpaceDash (s : String) : String :=
  String.mk (s.data.map (fun c => if c = ' ' then '-' else c))

/-- The accumulated pairwise distance loop over a polyline
(`for i in range(len(coords)-1): dist += haversine(...)`). -/
def polyDist (cs : List Coord) : ℝ :=
  (cs.zip cs.tail).foldl (fun d pr => d + haversine pr.1 pr.2) 0

/-- A parsed GeoJSON geometry, as far as `build_graph` inspects it. -/
inductive Geometry : Type
  | point (c : Coord)
  | lineString (cs : List Coord)
  | other

/-- A parsed feature: its `properties.name` and its geometry. -/
structure Feature : Type where
  name : String
  geom : Geometry

/-- `graph[u].append(ed)` on the `defaultdict(list)`. -/
def addEdge (g : Graph) (u : String) (ed : Edge) : Graph :=
  match g with
  | [] => [(u, [ed])]
  | (v, l) :: rest => if v = u then (v, l ++ [ed]) :: rest else (v, l) :: addEdge rest u ed

/-- `nodes[name] = coord` on the Python dict (update in place, insert at end). -/
def upsertNode (ns : List (String × Coord)) (name : String) (c : Coord) :
    List (String × Coord) :=
  match ns with
  | [] => [(name, c)]
  | (m, d) :: rest => if m = name then (m, c) :: rest else (m, d) :: upsertNode rest name c

/-- The body of the first `for` loop of `build_graph`: `Point` features
populate the node registry (lowercased name, last write wins). -/
def nodeStep (ns : List (String × Coord)) (f : Feature) : List (String × Coord) :=
  match f.geom with
  | Geometry.point c => upsertNode ns (pyLower f.name) c
  | _ => ns

/-- The body of the second `for` loop of `build_graph`: each `LineString`
feature becomes two directed edges.  A line name without `"-"` is skipped; a
name that splits into anything other than exactly two parts makes the Python
tuple unpacking `a, b = name.split("-")` raise `ValueError`, modelled by
`none`. -/
def edgeStep (gr : Graph) (f : Feature) : Option Graph :=
  match f.geom with
  | Geometry.lineString cs =>
    let nm := pyLower f.name
    if containsDash nm = false then some gr
    else
      match pySplitDash nm with
      | [a, b] =>
        some (addEdge (addEdge gr a (b, polyDist cs, cs)) b (a, polyDist cs, cs.reverse))
      | _ => none
  | _ => some gr

/-- `build_graph` from the source, applied to the parsed feature list (the
`json.load` step is outside the model): the node pass followed by the edge
pass. -/
def build_graph (feats : List Feature) : Option (Graph × List (String × Coord)) :=
  let nodes := feats.foldl nodeStep []
  match feats.foldlM edgeStep ([] : Graph) with
  | none => none
  | some gr => some (gr, nodes)

/-! ### Order facts for the queue -/

theorem lexLt_trichotomy {α : Type} (r : α → α → Prop)
    (htri : ∀ a b, r a b ∨ a = b ∨ r b a) :
    ∀ l1 l2 : List α, lexLt r l1 l2 ∨ l1 = l2 ∨ lexLt r l2 l1
  | [], [] => Or.inr (Or.inl rfl)
  | [], _ :: _ => Or.inl trivial
  | _ :: _, [] => Or.inr (Or.inr trivial)
  | a :: as, b :: bs => by
    rcases htri a b with h | h | h
    · exact Or.inl (Or.inl h)
    · subst h
      rcases lexLt_trichotomy r htri as bs with h | h | h
      · exact Or.inl (Or.inr ⟨rfl, h⟩)
      · subst h
        exact Or.inr (Or.inl rfl)
      · exact Or.inr (Or.inr (Or.inr ⟨rfl, h⟩))
    · exact Or.inr (Or.inr (Or.inl h))

theorem pairLt_trichotomy (p q : Coord) : pairLt p q ∨ p = q ∨ pairLt q p := by
  obtain ⟨a, b⟩ := p
  obtain ⟨c, d⟩ := q
  rcases lt_trichotomy a c with h | h | h
  · exact Or.inl (Or.inl h)
  · subst h
    rcases lt_trichotomy b d with h | h | h
    · exact Or.inl (Or.inr ⟨rfl, h⟩)
    · subst h
      exact Or.inr (Or.inl rfl)
    · exact Or.inr (Or.inr (Or.inr ⟨rfl, h⟩))
  · exact Or.inr (Or.inr (Or.inl h))

theorem strLt_trichotomy (s t : String) : strLt s t ∨ s = t ∨ strLt t s := by
  rcases lexLt_trichotomy (fun a b : Char => a < b) (fun a b => lt_trichotomy a b)
    s.data t.data with h | h | h
  · exact Or.inl h
  · refine Or.inr (Or.inl ?_)
    cases s
    cases t
    exact congrArg String.mk h
  · exact Or.inr (Or.inr h)

theorem entryLt_trichotomy (e f : Entry) : entryLt e f ∨ e = f ∨ entryLt f e := by
  obtain ⟨c1, n1, p1, g1⟩ := e
  obtain ⟨c2, n2, p2, g2⟩ := f
  rcases lt_trichotomy c1 c2 with h | h | h
  · exact Or.inl (Or.inl h)
  · subst h
    rcases strLt_trichotomy n1 n2 with h | h | h
    · exact Or.inl (Or.inr ⟨rfl, Or.inl h⟩)
    · subst h
      rcases lexLt_trichotomy strLt strLt_trichotomy p1 p2 with h | h | h
      · exact Or.inl (Or.inr ⟨rfl, Or.inr ⟨rfl, Or.inl h⟩⟩)
      · subst h
        rcases lexLt_trichotomy (lexLt pairLt)
          (lexLt_trichotomy pairLt pairLt_trichotomy) g1 g2 with h | h | h
        · exact Or.inl (Or.inr ⟨rfl, Or.inr ⟨rfl, Or.inr ⟨rfl, h⟩⟩⟩)
        · subst h
          exact Or.inr (Or.inl rfl)
        · exact Or.inr (Or.inr (Or.inr ⟨rfl, Or.inr ⟨rfl, Or.inr ⟨rfl, h⟩⟩⟩))
      · exact Or.inr (Or.inr (Or.inr ⟨rfl, Or.inr ⟨rfl, Or.inl h⟩⟩))
    · exact Or.inr (Or.inr (Or.inr ⟨rfl, Or.inl h⟩))
  · exact Or.inr (Or.inr (Or.inl h))

theorem entryLe_total (e f : Entry) : entryLe e f ∨ entryLe f e := by
  rcases entryLt_trichotomy e f with h | h | h
  · exact Or.inl (Or.inl h)
  · exact Or.inl (Or.inr h)
  · exact Or.inr (Or.inl h)

theorem cost_le_of_entryLe {e f : Entry} (h : entryLe e f) : e.1 ≤ f.1 := by
  rcases h with h | h
  · rcases h with h | ⟨h, _⟩
    · exact le_of_lt h
    · exact le_of_eq h
  · subst h
    exact le_refl _

theorem mem_insertE (e x : Entry) (l : List Entry) :
    x ∈ insertE e l ↔ x = e ∨ x ∈ l := by
  induction l with
  | nil => simp [insertE]
  | cons y ys ih =>
    unfold insertE
    by_cases hc : entryLe e y
    · rw [if_pos hc]
      simp only [List.mem_cons]
    · rw [if_neg hc]
      simp only [List.mem_cons, ih]
      tauto

theorem pairwise_cost_insertE (e : Entry) (l : List Entry)
    (h : l.Pairwise (fun a b : Entry => a.1 ≤ b.1)) :
    (insertE e l).Pairwise (fun a b : Entry => a.1 ≤ b.1) := by
  induction l with
  | nil => simp [insertE]
  | cons x xs ih =>
    rw [List.pairwise_cons] at h
    unfold insertE
    by_cases hc : entryLe e x
    · rw [if_pos hc]
      rw [List.pairwise_cons]
      refine ⟨?_, List.pairwise_cons.mpr h⟩
      intro y hy
      rcases List.mem_cons.mp hy with rfl | hy'
      · exact cost_le_of_entryLe hc
      · exact le_trans (cost_le_of_entryLe hc) (h.1 y hy')
    · rw [if_neg hc]
      rw [List.pairwise_cons]
      constructor
      · intro y hy
        rcases (mem_insertE _ y xs).mp hy with rfl | hy'
        · rcases entryLe_total y x with h' | h'
          · exact absurd h' hc
          · exact cost_le_of_entryLe h'
        · exact h.1 y hy'
      · exact ih h.2

theorem mem_pushEdges (c : ℝ) (p : List String) (gs : List (List Coord))
    (adj : List Edge) (q : List Entry) (x : Entry) :
    x ∈ pushEdges c p gs adj q ↔
      x ∈ q ∨ ∃ ed ∈ adj, x = (c + ed.2.1, ed.1, p, gs ++ [ed.2.2]) := by
  induction adj generalizing q with
  | nil => simp [pushEdges]
  | cons ed adj ih =>
    unfold pushEdges at ih ⊢
    simp only [List.foldl_cons]
    rw [ih, mem_insertE]
    simp only [List.mem_cons]
    constructor
    · rintro ((rfl | hq) | ⟨ed', hed', rfl⟩)
      · exact Or.inr ⟨ed, Or.inl rfl, rfl⟩
      · exact Or.inl hq
      · exact Or.inr ⟨ed', Or.inr hed', rfl⟩
    · rintro (hq | ⟨ed', rfl | hed', rfl⟩)
      · exact Or.inl (Or.inr hq)
      · exact Or.inl (Or.inl rfl)
      · exact Or.inr ⟨ed', hed', rfl⟩

theorem pairwise_cost_pushEdges (c : ℝ) (p : List String) (gs : List (List Coord))
    (adj : List Edge) (q : List Entry)
    (h : q.Pairwise (fun a b : Entry => a.1 ≤ b.1)) :
    (pushEdges c p gs adj q).Pairwise (fun a b : Entry => a.1 ≤ b.1) := by
  induction adj generalizing q with
  | nil => exact h
  | cons ed adj ih =>
    unfold pushEdges at ih ⊢
    simp only [List.foldl_cons]
    exact ih _ (pairwise_cost_insertE _ _ h)

/-! ### Walks in the graph -/

/-- A walk from `s` to `t`: a chain of edges, each taken from the adjacency
list of the node reached so far. -/
def IsWalk (g : Graph) : String → List Edge → String → Prop
  | s, [], t => s = t
  | s, ed :: es, t => ed ∈ lookupAdj g s ∧ IsWalk g ed.1 es t

/-- Total weight of a chain of edges. -/
def walkWeight (es : List Edge) : ℝ := (es.map (fun ed => ed.2.1)).sum

/-- All edge weights of the graph are nonnegative. -/
def NonnegW (g : Graph) : Prop := ∀ pr ∈ g, ∀ ed ∈ pr.2, 0 ≤ ed.2.1

/-- All edge weights of the graph are positive. -/
def PosW (g : Graph) : Prop := ∀ pr ∈ g, ∀ ed ∈ pr.2, 0 < ed.2.1

theorem lookup_mem {g : Graph} {n : String} {l : List Edge}
    (h : List.lookup n g = some l) : (n, l) ∈ g := by
  induction g with
  | nil => simp [List.lookup] at h
  | cons pr rest ih =>
    obtain ⟨k, v⟩ := pr
    by_cases hk : n == k
    · simp only [List.lookup, hk] at h
      obtain rfl := Option.some_injective _ h
      have : n = k := by simpa using hk
      subst this
      exact List.mem_cons_self _ _
    · simp only [List.lookup, Bool.not_eq_true] at hk
      simp only [List.lookup, hk] at h
      exact List.mem_cons_of_mem _ (ih h)

theorem edge_nonneg {g : Graph} {u : String} {ed : Edge}
    (hg : NonnegW g) (h : ed ∈ lookupAdj g u) : 0 ≤ ed.2.1 := by
  unfold lookupAdj at h
  cases hl : List.lookup u g with
  | none => rw [hl] at h; simp at h
  | some l =>
    rw [hl] at h
    simp only [Option.getD_some] at h
    exact hg (u, l) (lookup_mem hl) ed h

theorem walkWeight_nonneg {g : Graph} (hg : NonnegW g) :
    ∀ {s : String} {es : List Edge} {t : String}, IsWalk g s es t → 0 ≤ walkWeight es := by
  intro s es
  induction es generalizing s with
  | nil => intro t _; simp [walkWeight]
  | cons ed es ih =>
    intro t hw
    obtain ⟨hed, hrest⟩ := hw
    have h1 := edge_nonneg hg hed
    have h2 := ih hrest
    simp only [walkWeight, List.map_cons, List.sum_cons]
    have : (0 : ℝ) ≤ (es.map (fun ed => ed.2.1)).sum := h2
    linarith

theorem walkWeight_append (es1 es2 : List Edge) :
    walkWeight (es1 ++ es2) = walkWeight es1 + walkWeight es2 := by
  simp [walkWeight]

theorem isWalk_snoc {g : Graph} {s m : String} {es : List Edge} {ed : Edge}
    (h : IsWalk g s es m) (hed : ed ∈ lookupAdj g m) :
    IsWalk g s (es ++ [ed]) ed.1 := by
  induction es generalizing s with
  | nil =>
    obtain rfl := h
    exact ⟨hed, rfl⟩
  | cons e es ih =>
    obtain ⟨he, hrest⟩ := h
    exact ⟨he, ih hrest⟩

theorem exit_decomp {g : Graph} {start : String} {visited : List String} :
    ∀ {es : List Edge} {z : String}, IsWalk g start es z →
      start ∈ visited → z ∉ visited →
      ∃ u ed pre suf, es = pre ++ ed :: suf ∧ IsWalk g start pre u ∧ u ∈ visited ∧
        ed ∈ lookupAdj g u ∧ ed.1 ∉ visited ∧ IsWalk g ed.1 suf z := by
  intro es
  induction es generalizing start with
  | nil =>
    intro z h hs hz
    obtain rfl := h
    exact absurd hs hz
  | cons ed es ih =>
    intro z h hs hz
    obtain ⟨hed, hrest⟩ := h
    by_cases hv : ed.1 ∈ visited
    · obtain ⟨u, ed', pre, suf, heq, hpre, hu, hed', hnv, hsuf⟩ := ih hrest hv hz
      exact ⟨u, ed', ed :: pre, suf, by rw [heq, List.cons_append], ⟨hed, hpre⟩, hu, hed', hnv,
        hsuf⟩
    · exact ⟨start, ed, [], es, rfl, rfl, hs, hed, hv, hrest⟩

/-! ### The loop invariant of the path finder -/

/-- Soundness data for one queue entry `(cost, node, path, geoms)`: it records
an actual walk from `start` to `node` whose weight is `cost`, whose node
sequence is `path ++ [node]`, and whose polylines are `geoms`; moreover `path`
is duplicate-free and consists of visited nodes. -/
def EntryInv (g : Graph) (start : String) (visited : List String) (ent : Entry) : Prop :=
  ∃ es, IsWalk g start es ent.2.1 ∧ walkWeight es = ent.1 ∧
    ent.2.2.1 ++ [ent.2.1] = start :: es.map (fun ed => ed.1) ∧
    ent.2.2.2 = es.map (fun ed => ed.2.2) ∧
    ent.2.2.1.Nodup ∧ (∀ x ∈ ent.2.2.1, x ∈ visited)

theorem EntryInv.mono {g : Graph} {start : String} {visited visited' : List String}
    {ent : Entry} (h : EntryInv g start visited ent)
    (hsub : ∀ x ∈ visited, x ∈ visited') : EntryInv g start visited' ent := by
  obtain ⟨es, h1, h2, h3, h4, h5, h6⟩ := h
  exact ⟨es, h1, h2, h3, h4, h5, fun x hx => hsub x (h6 x hx)⟩

/-- The invariant carried through `popLoop`.  `D` is a ghost map recording the
cost at which each visited node was expanded. -/
structure LoopInv (g : Graph) (start endN : String) (D : String → ℝ)
    (visited : List String) (pq : List Entry) : Prop where
  sorted : pq.Pairwise (fun a b : Entry => a.1 ≤ b.1)
  sound : ∀ ent ∈ pq, EntryInv g start visited ent
  relax : ∀ u ∈ visited, ∀ ed ∈ lookupAdj g u, ed.1 ∉ visited →
    ∃ ent ∈ pq, ent.2.1 = ed.1 ∧ ent.1 ≤ D u + ed.2.1
  startC : start ∉ visited → ∃ ent ∈ pq, ent.2.1 = start ∧ ent.1 ≤ 0
  endC : endN ∉ visited

/-- Optimality of the ghost map on visited nodes. -/
def OptD (g : Graph) (start : String) (D : String → ℝ) (visited : List String) : Prop :=
  ∀ u ∈ visited, ∀ es, IsWalk g start es u → D u ≤ walkWeight es

theorem LoopInv.discard {g : Graph} {start endN : String} {D : String → ℝ}
    {visited : List String} {c : ℝ} {n : String} {p : List String}
    {gs : List (List Coord)} {rest : List Entry}
    (inv : LoopInv g start endN D visited ((c, n, p, gs) :: rest))
    (hn : n ∈ visited) : LoopInv g start endN D visited rest := by
  refine ⟨(List.pairwise_cons.mp inv.sorted).2, ?_, ?_, ?_, inv.endC⟩
  · intro ent hent
    exact inv.sound ent (List.mem_cons_of_mem _ hent)
  · intro u hu ed hed hnv
    obtain ⟨ent, hent, hnode, hcost⟩ := inv.relax u hu ed hed hnv
    refine ⟨ent, ?_, hnode, hcost⟩
    rcases List.mem_cons.mp hent with rfl | h
    · exact absurd (hnode ▸ hn) hnv
    · exact h
  · intro hs
    obtain ⟨ent, hent, hnode, hcost⟩ := inv.startC hs
    refine ⟨ent, ?_, hnode, hcost⟩
    rcases List.mem_cons.mp hent with rfl | h
    · exact absurd (hnode ▸ hn) hs
    · exact h

theorem LoopInv.expand {g : Graph} {start endN : String} {D : String → ℝ}
    {visited : List String} {c : ℝ} {n : String} {p : List String}
    {gs : List (List Coord)} {rest : List Entry}
    (inv : LoopInv g start endN D visited ((c, n, p, gs) :: rest))
    (hn : n ∉ visited) (hne : ¬ n = endN) :
    LoopInv g start endN (Function.update D n c) (n :: visited)
      (pushEdges c (p ++ [n]) gs (lookupAdj g n) rest) := by
  have hsub : ∀ x ∈ visited, x ∈ n :: visited := fun x hx => List.mem_cons_of_mem _ hx
  obtain ⟨es0, hw0, hwt0, hnodes0, hgeoms0, hnd0, hvis0⟩ :=
    inv.sound (c, n, p, gs) (List.mem_cons_self _ _)
  have hnp : n ∉ p := fun h => hn (hvis0 n h)
  constructor
  · exact pairwise_cost_pushEdges _ _ _ _ _ (List.pairwise_cons.mp inv.sorted).2
  · intro ent hent
    rcases (mem_pushEdges _ _ _ _ _ ent).mp hent with hq | ⟨ed, hed, rfl⟩
    · exact (inv.sound ent (List.mem_cons_of_mem _ hq)).mono hsub
    · refine ⟨es0 ++ [ed], isWalk_snoc hw0 hed, ?_, ?_, ?_, ?_, ?_⟩
      · rw [walkWeight_append, hwt0]
        simp [walkWeight]
      · simp only [List.map_append, List.map_cons, List.map_nil]
        rw [← List.cons_append, ← hnodes0]
      · simp only [List.map_append, List.map_cons, List.map_nil]
        rw [← hgeoms0]
      · simp only [List.nodup_append, List.nodup_cons, List.nodup_nil]
        refine ⟨hnd0, ⟨by simp, trivial⟩, ?_⟩
        intro x hx
        simp only [List.mem_singleton]
        intro hxn
        subst hxn
        exact hnp hx
      · intro x hx
        rcases List.mem_append.mp hx with hx | hx
        · exact List.mem_cons_of_mem _ (hvis0 x hx)
        · simp only [List.mem_singleton] at hx
          subst hx
          exact List.mem_cons_self _ _
  · intro u hu ed hed hnv
    have hnv' : ed.1 ∉ visited := fun h => hnv (List.mem_cons_of_mem _ h)
    have hnvn : ed.1 ≠ n := fun h => hnv (h ▸ List.mem_cons_self _ _)
    rcases List.mem_cons.mp hu with rfl | hu'
    · refine ⟨(c + ed.2.1, ed.1, p ++ [u], gs ++ [ed.2.2]), ?_, rfl, ?_⟩
      · exact (mem_pushEdges _ _ _ _ _ _).mpr (Or.inr ⟨ed, hed, rfl⟩)
      · rw [Function.update_same]
    · have hun : u ≠ n := fun h => hn (h ▸ hu')
      obtain ⟨ent, hent, hnode, hcost⟩ := inv.relax u hu' ed hed hnv'
      refine ⟨ent, ?_, hnode, by rwa [Function.update_noteq hun]⟩
      rcases List.mem_cons.mp hent with rfl | h
      · exact absurd hnode.symm hnvn
      · exact (mem_pushEdges _ _ _ _ _ _).mpr (Or.inl h)
  · intro hs
    have hs' : start ∉ visited := fun h => hs (List.mem_cons_of_mem _ h)
    have hsn : start ≠ n := fun h => hs (h ▸ List.mem_cons_self _ _)
    obtain ⟨ent, hent, hnode, hcost⟩ := inv.startC hs'
    refine ⟨ent, ?_, hnode, hcost⟩
    rcases List.mem_cons.mp hent with rfl | h
    · exact absurd hnode (fun hh => hsn hh.symm)
    · exact (mem_pushEdges _ _ _ _ _ _).mpr (Or.inl h)
  · intro hmem
    rcases List.mem_cons.mp hmem with h | h
    · exact hne h.symm
    · exact inv.endC h

theorem head_le_walk {g : Graph} {start endN : String} {D : String → ℝ}
    {visited : List String} {c : ℝ} {n : String} {p : List String}
    {gs : List (List Coord)} {rest : List Entry}
    (inv : LoopInv g start endN D visited ((c, n, p, gs) :: rest))
    (opt : OptD g start D visited) (hw : NonnegW g)
    {z : String} (hz : z ∉ visited) {es : List Edge} (hwalk : IsWalk g start es z) :
    c ≤ walkWeight es := by
  have hmin : ∀ ent ∈ (c, n, p, gs) :: rest, c ≤ ent.1 := by
    intro ent hent
    rcases List.mem_cons.mp hent with rfl | h
    · exact le_refl _
    · exact (List.pairwise_cons.mp inv.sorted).1 ent h
  by_cases hstart : start ∈ visited
  · obtain ⟨u, ed, pre, suf, heq, hpre, hu, hed, hnv, hsuf⟩ :=
      exit_decomp hwalk hstart hz
    obtain ⟨ent, hent, hnode, hcost⟩ := inv.relax u hu ed hed hnv
    have h1 : c ≤ ent.1 := hmin ent hent
    have h2 : D u ≤ walkWeight pre := opt u hu pre hpre
    have h3 : 0 ≤ walkWeight suf := walkWeight_nonneg hw hsuf
    have h4 : walkWeight es = walkWeight pre + (ed.2.1 + walkWeight suf) := by
      rw [heq, walkWeight_append]
      simp [walkWeight]
    linarith
  · obtain ⟨ent, hent, hnode, hcost⟩ := inv.startC hstart
    have h0 : 0 ≤ walkWeight es := walkWeight_nonneg hw hwalk
    have h1 := hmin ent hent
    linarith

/-! ### Main lemmas about the loop -/

theorem popLoop_some_props (g : Graph) (start endN : String) :
    ∀ visited pq, ∀ D : String → ℝ, LoopInv g start endN D visited pq →
      ∀ p gs, popLoop g endN visited pq = some (p, gs) →
      ∃ es, IsWalk g start es endN ∧ p = start :: es.map (fun ed => ed.1) ∧
        gs = es.map (fun ed => ed.2.2) ∧ p.Nodup := by
  intro visited pq
  induction visited, pq using popLoop.induct g endN with
  | case1 visited =>
    intro D inv p gs heq
    rw [popLoop.eq_def] at heq
    simp at heq
  | case2 visited c n p0 gs0 rest h1 ih =>
    intro D inv p gs heq
    rw [popLoop.eq_def] at heq
    simp only [dif_pos h1] at heq
    exact ih D (inv.discard h1) p gs heq
  | case3 visited c p0 gs0 rest h1 =>
    intro D inv p gs heq
    rw [popLoop.eq_def] at heq
    simp only [dif_neg h1, if_true] at heq
    simp only [Option.some.injEq, Prod.mk.injEq] at heq
    obtain ⟨rfl, rfl⟩ := heq
    obtain ⟨es, hwlk, hwt, hnodes, hgeoms, hnd, hvis⟩ :=
      inv.sound (c, endN, p0, gs0) (List.mem_cons_self _ _)
    have hnp : endN ∉ p0 := fun h => h1 (hvis _ h)
    refine ⟨es, hwlk, hnodes, hgeoms, ?_⟩
    simp only [List.nodup_append, List.nodup_cons, List.nodup_nil]
    refine ⟨hnd, ⟨by simp, trivial⟩, ?_⟩
    intro x hx
    simp only [List.mem_singleton]
    intro hxe
    subst hxe
    exact hnp hx
  | case4 visited c n p0 gs0 rest h1 h2 ih =>
    intro D inv p gs heq
    rw [popLoop.eq_def] at heq
    simp only [dif_neg h1, if_neg h2] at heq
    exact ih (Function.update D n c) (inv.expand h1 h2) p gs heq

theorem popLoop_complete (g : Graph) (start endN : String) :
    ∀ visited pq, ∀ D : String → ℝ, LoopInv g start endN D visited pq →
      ∀ es, IsWalk g start es endN → (popLoop g endN visited pq).isSome := by
  intro visited pq
  induction visited, pq using popLoop.induct g endN with
  | case1 visited =>
    intro D inv es hwalk
    by_cases hstart : start ∈ visited
    · obtain ⟨u, ed, pre, suf, heq, hpre, hu, hed, hnv, hsuf⟩ :=
        exit_decomp hwalk hstart inv.endC
      obtain ⟨ent, hent, _, _⟩ := inv.relax u hu ed hed hnv
      simp at hent
    · obtain ⟨ent, hent, _, _⟩ := inv.startC hstart
      simp at hent
  | case2 visited c n p0 gs0 rest h1 ih =>
    intro D inv es hwalk
    rw [popLoop.eq_def]
    simp only [dif_pos h1]
    exact ih D (inv.discard h1) es hwalk
  | case3 visited c p0 gs0 rest h1 =>
    intro D inv es hwalk
    rw [popLoop.eq_def]
    simp only [dif_neg h1, if_true]
    rfl
  | case4 visited c n p0 gs0 rest h1 h2 ih =>
    intro D inv es hwalk
    rw [popLoop.eq_def]
    simp only [dif_neg h1, if_neg h2]
    exact ih (Function.update D n c) (inv.expand h1 h2) es hwalk

theorem popLoop_opt (g : Graph) (start endN : String) (hw : NonnegW g) :
    ∀ visited pq, ∀ D : String → ℝ,
      LoopInv g start endN D visited pq → OptD g start D visited →
      ∀ p gs, popLoop g endN visited pq = some (p, gs) →
      ∃ es, IsWalk g start es endN ∧ p = start :: es.map (fun ed => ed.1) ∧
        gs = es.map (fun ed => ed.2.2) ∧ p.Nodup ∧
        ∀ es', IsWalk g start es' endN → walkWeight es ≤ walkWeight es' := by
  intro visited pq
  induction visited, pq using popLoop.induct g endN with
  | case1 visited =>
    intro D inv opt p gs heq
    rw [popLoop.eq_def] at heq
    simp at heq
  | case2 visited c n p0 gs0 rest h1 ih =>
    intro D inv opt p gs heq
    rw [popLoop.eq_def] at heq
    simp only [dif_pos h1] at heq
    exact ih D (inv.discard h1) opt p gs heq
  | case3 visited c p0 gs0 rest h1 =>
    intro D inv opt p gs heq
    rw [popLoop.eq_def] at heq
    simp only [dif_neg h1, if_true] at heq
    simp only [Option.some.injEq, Prod.mk.injEq] at heq
    obtain ⟨rfl, rfl⟩ := heq
    obtain ⟨es, hwlk, hwt, hnodes, hgeoms, hnd, hvis⟩ :=
      inv.sound (c, endN, p0, gs0) (List.mem_cons_self _ _)
    have hnp : endN ∉ p0 := fun h => h1 (hvis _ h)
    refine ⟨es, hwlk, hnodes, hgeoms, ?_, ?_⟩
    · simp only [List.nodup_append, List.nodup_cons, List.nodup_nil]
      refine ⟨hnd, ⟨by simp, trivial⟩, ?_⟩
      intro x hx
      simp only [List.mem_singleton]
      intro hxe
      subst hxe
      exact hnp hx
    · intro es' hwalk'
      have := head_le_walk inv opt hw h1 hwalk'
      rw [hwt]
      exact this
  | case4 visited c n p0 gs0 rest h1 h2 ih =>
    intro D inv opt p gs heq
    rw [popLoop.eq_def] at heq
    simp only [dif_neg h1, if_neg h2] at heq
    have opt' : OptD g start (Function.update D n c) (n :: visited) := by
      intro u hu es hwalk
      rcases List.mem_cons.mp hu with rfl | hu'
      · rw [Function.update_same]
        exact head_le_walk inv opt hw h1 hwalk
      · have hun : u ≠ n := fun h => h1 (h ▸ hu')
        rw [Function.update_noteq hun]
        exact opt u hu' es hwalk
    exact ih (Function.update D n c) (inv.expand h1 h2) opt' p gs heq

theorem loopInv_init (g : Graph) (start endN : String) :
    LoopInv g start endN (fun _ => 0) [] [(0, start, [], [])] := by
  constructor
  · simp
  · intro ent hent
    simp only [List.mem_singleton] at hent
    subst hent
    refine ⟨[], rfl, by simp [walkWeight], by simp, by simp, by simp, by simp⟩
  · intro u hu
    simp at hu
  · intro _
    exact ⟨(0, start, [], []), List.mem_cons_self _ _, rfl, le_refl 0⟩
  · simp

theorem optD_init (g : Graph) (start : String) :
    OptD g start (fun _ => 0) [] := by
  intro u hu
  simp at hu

theorem shortest_path_walk_of_some {g : Graph} {s e : String}
    {p : List String} {gs : List (List Coord)}
    (h : shortest_path g s e = some (p, gs)) :
    ∃ es, IsWalk g s es e ∧ p = s :: es.map (fun ed => ed.1) ∧
      gs = es.map (fun ed => ed.2.2) ∧ p.Nodup :=
  popLoop_some_props g s e [] [(0, s, [], [])] (fun _ => 0) (loopInv_init g s e) p gs h

theorem shortest_path_isSome_of_walk {g : Graph} {s e : String}
    {es : List Edge} (h : IsWalk g s es e) : (shortest_path g s e).isSome :=
  popLoop_complete g s e [] [(0, s, [], [])] (fun _ => 0) (loopInv_init g s e) es h

theorem shortest_path_none_iff (g : Graph) (s e : String) :
    shortest_path g s e = none ↔ ¬ ∃ es, IsWalk g s es e := by
  constructor
  · rintro hnone ⟨es, hwalk⟩
    have hsome := shortest_path_isSome_of_walk hwalk
    rw [hnone] at hsome
    simp at hsome
  · intro hno
    cases hres : shortest_path g s e with
    | none => rfl
    | some pr =>
      obtain ⟨p, gs⟩ := pr
      obtain ⟨es, hwalk, -, -, -⟩ := shortest_path_walk_of_some hres
      exact absurd ⟨es, hwalk⟩ hno

theorem shortest_path_self_eq (g : Graph) (x : String) :
    shortest_path g x x = some ([x], []) := by
  rw [shortest_path, popLoop.eq_def]
  simp

/-! ### The instruction synthesizer -/

/-- One output instruction: the Python dict with its optional keys. -/
structure Instr : Type where
  text : String
  type : String
  distance : Option ℤ := none
  turn_direction : Option String := none
  landmark : Option String := none

/-- The body of the `for i in range(len(geoms))` loop of `generate_instructions`,
producing the instructions appended during iteration `i`.  Python list indexing
that can raise `IndexError` is modelled by fallible access; `geoms[i]` itself is
always in range for the loop indices.  For `i > 0` the previous iteration left
`prev_coords = geoms[i-1]`. -/
def segStep (path : List String) (geoms : List (List Coord)) (i : ℕ) :
    Option (List Instr) :=
  let coords := geoms.getD i []
  let dist := polyDist coords
  match path.get? (i + 1) with
  | none => none
  | some next_node =>
    let is_junction := pyStartsWith next_node "j"
    if i = 0 then
      if is_junction then
        some [{ text := "Continue straight " ++ toString (pyInt dist) ++ " m to " ++
                  pyUpper next_node,
                distance := some (pyInt dist), type := "straight",
                landmark := some next_node }]
      else
        some [{ text := "Go straight " ++ toString (pyInt dist) ++ " m and cross " ++
                  pyCapitalize next_node,
                distance := some (pyInt dist), type := "straight",
                landmark := some next_node }]
    else
      let prev := geoms.getD (i - 1) []
      match (if 2 ≤ prev.length then prev.get? (prev.length - 2) else none),
          prev.getLast?, coords.get? 0, coords.get? 1, path.get? i with
      | some pm2, some pm1, some c0, some c1, some current_node =>
        let b1 := bearing pm2 pm1
        let b2 := bearing c0 c1
        let turn := turn_direction b1 b2
        let current_is_junction := pyStartsWith current_node "j"
        if current_is_junction then
          some [{ text := "At " ++ pyUpper current_node ++ ", " ++ turn, type := "turn",
                  turn_direction := some (pyReplaceSpaceDash (pyLower turn)) },
            if is_junction then
              { text := "Go straight " ++ toString (pyInt dist) ++ " m to " ++
                  pyUpper next_node,
                distance := some (pyInt dist), type := "straight",
                landmark := some next_node }
            else
              { text := "Go straight " ++ toString (pyInt dist) ++ " m and cross " ++
                  pyCapitalize next_node,
                distance := some (pyInt dist), type := "straight",
                landmark := some next_node }]
        else
          if turn = "Go straight" then
            some [if is_junction then
              { text := "Continue straight " ++ toString (pyInt dist) ++ " m to " ++
                  pyUpper next_node,
                distance := some (pyInt dist), type := "straight",
                landmark := some next_node }
            else
              { text := "Continue straight " ++ toString (pyInt dist) ++ " m and cross " ++
                  pyCapitalize next_node,
                distance := some (pyInt dist), type := "straight",
                landmark := some next_node }]
          else
            some [if is_junction then
              { text := turn ++ " and go " ++ toString (pyInt dist) ++ " m to " ++
                  pyUpper next_node,
                distance := some (pyInt dist), type := "turn-straight",
                turn_direction := some (pyReplaceSpaceDash (pyLower turn)),
                landmark := some next_node }
            else
              { text := turn ++ " and go " ++ toString (pyInt dist) ++ " m crossing " ++
                  pyCapitalize next_node,
                distance := some (pyInt dist), type := "turn-straight",
                turn_direction := some (pyReplaceSpaceDash (pyLower turn)),
                landmark := some next_node }]
      | _, _, _, _, _ => none

/-- Running the loop body over a list of indices, concatenating the appended
instructions in order. -/
def mapBlocks (path : List String) (geoms : List (List Coord)) :
    List ℕ → Option (List Instr)
  | [] => some []
  | i :: rest =>
    match segStep path geoms i, mapBlocks path geoms rest with
    | some b, some bs => some (b ++ bs)
    | _, _ => none

/-- `generate_instructions(path, geoms)` from the source: the start instruction
(`path[0]`), the loop over the segments, and the destination instruction
(`path[-1]`). -/
def generate_instructions (path : List String) (geoms : List (List Coord)) :
    Option (List Instr) :=
  match path.get? 0 with
  | none => none
  | some s0 =>
    match mapBlocks path geoms (List.range geoms.length), path.getLast? with
    | some blocks, some lastN =>
      some ({ text := "Start at " ++ pyCapitalize s0, type := "start" } :: blocks ++
        [{ text := "Reach " ++ pyUpper lastN, type := "destination" }])
    | _, _ => none

/-! ### Facts about the synthesizer -/

theorem foldl_add_le (l : List (Coord × Coord)) :
    ∀ a : ℝ, a ≤ l.foldl (fun d pr => d + haversine pr.1 pr.2) a := by
  induction l with
  | nil => intro a; exact le_refl a
  | cons pr l ih =>
    intro a
    have h1 : a ≤ a + haversine pr.1 pr.2 := by
      have := haversine_nonneg pr.1 pr.2
      linarith
    exact le_trans h1 (ih _)

theorem polyDist_nonneg (cs : List Coord) : 0 ≤ polyDist cs :=
  foldl_add_le _ 0

theorem pyInt_nonneg {r : ℝ} (h : 0 ≤ r) : 0 ≤ pyInt r := by
  unfold pyInt
  rw [if_neg (not_lt.mpr h)]
  exact Int.floor_nonneg.mpr h

theorem get?_isSome_of_lt {α : Type} {l : List α} {i : ℕ} (h : i < l.length) :
    ∃ a, l.get? i = some a := by
  cases hres : l.get? i with
  | none =>
    rw [List.get?_eq_none] at hres
    omega
  | some a => exact ⟨a, rfl⟩

theorem getD_mem_of_lt {α : Type} {l : List α} {i : ℕ} (h : i < l.length) (d : α) :
    l.getD i d ∈ l := by
  obtain ⟨a, ha⟩ := get?_isSome_of_lt h
  rw [List.getD_eq_getD_get?, ha]
  exact List.get?_mem ha

theorem segStep_isSome {path : List String} {geoms : List (List Coord)}
    (hlen : geoms.length + 1 = path.length)
    (hpoly : ∀ cs ∈ geoms, 2 ≤ cs.length) {i : ℕ} (hi : i < geoms.length) :
    ∃ bl, segStep path geoms i = some bl ∧ bl ≠ [] ∧
      ∀ ins ∈ bl, ∀ d, ins.distance = some d → 0 ≤ d := by
  have hdist : 0 ≤ pyInt (polyDist (geoms.getD i [])) :=
    pyInt_nonneg (polyDist_nonneg _)
  obtain ⟨next, hnext⟩ := get?_isSome_of_lt (l := path) (i := i + 1) (by omega)
  simp only [segStep, hnext]
  by_cases hi0 : i = 0
  · rw [if_pos hi0]
    by_cases hj : pyStartsWith next "j" = true
    · rw [if_pos hj]
      subst hi0
      refine ⟨_, rfl, by simp, ?_⟩
      intro ins hins d hd
      simp only [List.mem_singleton] at hins
      subst hins
      simp only [Option.some.injEq] at hd
      subst hd
      exact hdist
    · rw [if_neg hj]
      subst hi0
      refine ⟨_, rfl, by simp, ?_⟩
      intro ins hins d hd
      simp only [List.mem_singleton] at hins
      subst hins
      simp only [Option.some.injEq] at hd
      subst hd
      exact hdist
  · rw [if_neg hi0]
    have hi1 : i - 1 < geoms.length := by omega
    have hprevmem : geoms.getD (i - 1) [] ∈ geoms := getD_mem_of_lt hi1 []
    have hprevlen : 2 ≤ (geoms.getD (i - 1) []).length := hpoly _ hprevmem
    have hcoordmem : geoms.getD i [] ∈ geoms := getD_mem_of_lt hi []
    have hcoordlen : 2 ≤ (geoms.getD i []).length := hpoly _ hcoordmem
    obtain ⟨pm2, hpm2⟩ := get?_isSome_of_lt
      (l := geoms.getD (i - 1) []) (i := (geoms.getD (i - 1) []).length - 2) (by omega)
    have hpm1 : ∃ x, (geoms.getD (i - 1) []).getLast? = some x := by
      cases hres : (geoms.getD (i - 1) []).getLast? with
      | none =>
        rw [List.getLast?_eq_none_iff] at hres
        rw [hres] at hprevlen
        simp at hprevlen
      | some x => exact ⟨x, rfl⟩
    obtain ⟨pm1, hpm1⟩ := hpm1
    obtain ⟨c0, hc0⟩ := get?_isSome_of_lt (l := geoms.getD i []) (i := 0) (by omega)
    obtain ⟨c1, hc1⟩ := get?_isSome_of_lt (l := geoms.getD i []) (i := 1) (by omega)
    obtain ⟨cur, hcur⟩ := get?_isSome_of_lt (l := path) (i := i) (by omega)
    rw [if_pos hprevlen, hpm2, hpm1, hc0, hc1, hcur]
    dsimp only
    by_cases hcj : pyStartsWith cur "j" = true
    · rw [if_pos hcj]
      refine ⟨_, rfl, by simp, ?_⟩
      intro ins hins d hd
      rcases List.mem_cons.mp hins with rfl | hins'
      · simp at hd
      · simp only [List.mem_singleton] at hins'
        subst hins'
        by_cases hj : pyStartsWith next "j" = true
        · rw [if_pos hj] at hd
          simp only [Option.some.injEq] at hd
          subst hd
          exact hdist
        · rw [if_neg hj] at hd
          simp only [Option.some.injEq] at hd
          subst hd
          exact hdist
    · rw [if_neg hcj]
      by_cases ht : turn_direction (bearing pm2 pm1) (bearing c0 c1) = "Go straight"
      · rw [if_pos ht]
        refine ⟨_, rfl, by simp, ?_⟩
        intro ins hins d hd
        simp only [List.mem_singleton] at hins
        subst hins
        by_cases hj : pyStartsWith next "j" = true
        · rw [if_pos hj] at hd
          simp only [Option.some.injEq] at hd
          subst hd
          exact hdist
        · rw [if_neg hj] at hd
          simp only [Option.some.injEq] at hd
          subst hd
          exact hdist
      · rw [if_neg ht]
        refine ⟨_, rfl, by simp, ?_⟩
        intro ins hins d hd
        simp only [List.mem_singleton] at hins
        subst hins
        by_cases hj : pyStartsWith next "j" = true
        · rw [if_pos hj] at hd
          simp only [Option.some.injEq] at hd
          subst hd
          exact hdist
        · rw [if_neg hj] at hd
          simp only [Option.some.injEq] at hd
          subst hd
          exact hdist

theorem mapBlocks_isSome {path : List String} {geoms : List (List Coord)} :
    ∀ l : List ℕ,
      (∀ i ∈ l, ∃ bl, segStep path geoms i = some bl ∧ bl ≠ [] ∧
        ∀ ins ∈ bl, ∀ d, ins.distance = some d → 0 ≤ d) →
      ∃ bs, mapBlocks path geoms l = some bs ∧
        ∀ ins ∈ bs, ∀ d, ins.distance = some d → 0 ≤ d := by
  intro l
  induction l with
  | nil => intro _; exact ⟨[], rfl, by simp⟩
  | cons i rest ih =>
    intro h
    obtain ⟨bl, hbl, -, hblp⟩ := h i (List.mem_cons_self _ _)
    obtain ⟨bs, hbs, hbsp⟩ := ih (fun j hj => h j (List.mem_cons_of_mem _ hj))
    refine ⟨bl ++ bs, ?_, ?_⟩
    · unfold mapBlocks
      rw [hbl, hbs]
    · intro ins hins d hd
      rcases List.mem_append.mp hins with hins' | hins'
      · exact hblp ins hins' d hd
      · exact hbsp ins hins' d hd

theorem mapBlocks_decomp {path : List String} {geoms : List (List Coord)}
    {i : ℕ} {b : List Instr} (hb : segStep path geoms i = some b) :
    ∀ l bs, mapBlocks path geoms l = some bs → i ∈ l →
      ∃ pre post, bs = pre ++ b ++ post := by
  intro l
  induction l with
  | nil => intro bs _ h; simp at h
  | cons j rest ih =>
    intro bs hbs hmem
    unfold mapBlocks at hbs
    cases hj : segStep path geoms j with
    | none => rw [hj] at hbs; simp at hbs
    | some bj =>
      cases hrest : mapBlocks path geoms rest with
      | none => rw [hj, hrest] at hbs; simp at hbs
      | some brest =>
        rw [hj, hrest] at hbs
        simp only [Option.some.injEq] at hbs
        subst hbs
        rcases List.mem_cons.mp hmem with rfl | hmem'
        · rw [hj] at hb
          obtain rfl := Option.some_injective _ hb
          exact ⟨[], brest, by simp⟩
        · obtain ⟨pre, post, hsplit⟩ := ih brest hrest hmem'
          exact ⟨bj ++ pre, post, by rw [hsplit]; simp⟩

theorem segStep_junction {path : List String} {geoms : List (List Coord)}
    (hlen : geoms.length + 1 = path.length)
    (hpoly : ∀ cs ∈ geoms, 2 ≤ cs.length) {i : ℕ} (hi0 : 0 < i) (hi : i < geoms.length)
    (hj : pyStartsWith (path.getD i "") "j" = true) :
    ∃ t s_, segStep path geoms i = some [t, s_] ∧
      t.type = "turn" ∧ s_.type = "straight" ∧
      (∃ turnStr, t.text = "At " ++ pyUpper (path.getD i "") ++ ", " ++ turnStr ∧
        t.turn_direction = some (pyReplaceSpaceDash (pyLower turnStr))) ∧
      t.distance = none := by
  obtain ⟨next, hnext⟩ := get?_isSome_of_lt (l := path) (i := i + 1) (by omega)
  obtain ⟨cur, hcur⟩ := get?_isSome_of_lt (l := path) (i := i) (by omega)
  have hcurd : path.getD i "" = cur := by
    rw [List.getD_eq_getD_get?, hcur]
    rfl
  rw [hcurd] at hj
  simp only [segStep, hnext]
  rw [if_neg (by omega : ¬ i = 0)]
  have hi1 : i - 1 < geoms.length := by omega
  have hprevlen : 2 ≤ (geoms.getD (i - 1) []).length := hpoly _ (getD_mem_of_lt hi1 [])
  have hcoordlen : 2 ≤ (geoms.getD i []).length := hpoly _ (getD_mem_of_lt hi [])
  obtain ⟨pm2, hpm2⟩ := get?_isSome_of_lt
    (l := geoms.getD (i - 1) []) (i := (geoms.getD (i - 1) []).length - 2) (by omega)
  have hpm1 : ∃ x, (geoms.getD (i - 1) []).getLast? = some x := by
    cases hres : (geoms.getD (i - 1) []).getLast? with
    | none =>
      rw [List.getLast?_eq_none_iff] at hres
      rw [hres] at hprevlen
      simp at hprevlen
    | some x => exact ⟨x, rfl⟩
  obtain ⟨pm1, hpm1⟩ := hpm1
  obtain ⟨c0, hc0⟩ := get?_isSome_of_lt (l := geoms.getD i []) (i := 0) (by omega)
  obtain ⟨c1, hc1⟩ := get?_isSome_of_lt (l := geoms.getD i []) (i := 1) (by omega)
  rw [if_pos hprevlen, hpm2, hpm1, hc0, hc1, hcur]
  dsimp only
  rw [if_pos hj, hcurd]
  by_cases hnj : pyStartsWith next "j" = true
  · rw [if_pos hnj]
    exact ⟨_, _, rfl, rfl, rfl,
      ⟨turn_direction (bearing pm2 pm1) (bearing c0 c1), rfl, rfl⟩, rfl⟩
  · rw [if_neg hnj]
    exact ⟨_, _, rfl, rfl, rfl,
      ⟨turn_direction (bearing pm2 pm1) (bearing c0 c1), rfl, rfl⟩, rfl⟩

/-- The first instruction, as a function of `path[0]`. -/
def startInstr (s0 : String) : Instr :=
  { text := "Start at " ++ pyCapitalize s0, type := "start" }

/-- The last instruction, as a function of `path[-1]`. -/
def destInstr (lastN : String) : Instr :=
  { text := "Reach " ++ pyUpper lastN, type := "destination" }

theorem generate_instructions_eq {path : List String} {geoms : List (List Coord)}
    (hplen : 1 ≤ path.length) (hlen : geoms.length + 1 = path.length)
    (hpoly : ∀ cs ∈ geoms, 2 ≤ cs.length) :
    ∃ blocks, mapBlocks path geoms (List.range geoms.length) = some blocks ∧
      (∀ ins ∈ blocks, ∀ d, ins.distance = some d → 0 ≤ d) ∧
      generate_instructions path geoms =
        some (startInstr (path.getD 0 "") :: blocks ++ [destInstr (path.getLastD "")]) := by
  obtain ⟨s0, hs0⟩ := get?_isSome_of_lt (l := path) (i := 0) (by omega)
  have hs0d : path.getD 0 "" = s0 := by
    rw [List.getD_eq_getD_get?, hs0]
    rfl
  have hlast : ∃ x, path.getLast? = some x := by
    cases hres : path.getLast? with
    | none =>
      rw [List.getLast?_eq_none_iff] at hres
      rw [hres] at hplen
      simp at hplen
    | some x => exact ⟨x, rfl⟩
  obtain ⟨lastN, hlastN⟩ := hlast
  have hlastd : path.getLastD "" = lastN := by
    rw [List.getLastD_eq_getLast?, hlastN]
    rfl
  obtain ⟨blocks, hblocks, hprop⟩ := mapBlocks_isSome (List.range geoms.length)
    (fun i hi => segStep_isSome hlen hpoly (List.mem_range.mp hi))
  refine ⟨blocks, hblocks, hprop, ?_⟩
  unfold generate_instructions
  rw [hs0, hblocks, hlastN, hs0d, hlastd]
  rfl

/-! ### Facts about `polyDist` and `build_graph` -/

theorem foldl_add_eq_sum (l : List (Coord × Coord)) :
    ∀ a : ℝ, l.foldl (fun d pr => d + haversine pr.1 pr.2) a =
      a + (l.map (fun pr => haversine pr.1 pr.2)).sum := by
  induction l with
  | nil => intro a; simp
  | cons pr l ih =>
    intro a
    simp only [List.foldl_cons, List.map_cons, List.sum_cons]
    rw [ih]
    ring

theorem polyDist_eq_sum (cs : List Coord) :
    polyDist cs = ((cs.zip cs.tail).map (fun pr => haversine pr.1 pr.2)).sum := by
  unfold polyDist
  rw [foldl_add_eq_sum]
  ring

theorem polyDist_cons2 (a b : Coord) (t : List Coord) :
    polyDist (a :: b :: t) = haversine a b + polyDist (b :: t) := by
  rw [polyDist_eq_sum, polyDist_eq_sum]
  simp

theorem polyDist_snoc :
    ∀ (l : List Coord) (x : Coord),
      polyDist (l ++ [x]) = polyDist l +
        (match l.getLast? with
         | none => 0
         | some y => haversine y x)
  | [], x => by simp [polyDist]
  | [a], x => by
    rw [show ([a] : List Coord) ++ [x] = [a, x] by rfl]
    rw [polyDist_cons2]
    simp [polyDist]
  | a :: b :: t, x => by
    rw [show (a :: b :: t) ++ [x] = a :: b :: (t ++ [x]) by simp]
    rw [polyDist_cons2]
    rw [show (b :: (t ++ [x])) = (b :: t) ++ [x] by simp]
    rw [polyDist_snoc (b :: t) x]
    rw [polyDist_cons2, List.getLast?_cons_cons]
    ring

theorem polyDist_reverse : ∀ cs : List Coord, polyDist cs.reverse = polyDist cs
  | [] => rfl
  | [a] => rfl
  | a :: b :: t => by
    have ih := polyDist_reverse (b :: t)
    rw [show (a :: b :: t).reverse = (b :: t).reverse ++ [a] by simp]
    rw [polyDist_snoc]
    have hlast : (b :: t).reverse.getLast? = some b := by
      rw [List.getLast?_reverse]
      rfl
    rw [hlast, ih]
    dsimp only
    rw [polyDist_cons2, haversine_comm b a]
    ring

theorem shortest_path_single_edge {g : Graph} {a b : String} {w : ℝ}
    {cs : List Coord} (hab : a ≠ b) (hga : lookupAdj g a = [(b, w, cs)]) :
    shortest_path g a b = some ([a, b], [cs]) := by
  rw [shortest_path, popLoop.eq_def]
  dsimp only
  rw [dif_neg (List.not_mem_nil a), if_neg hab, hga]
  show popLoop g b [a] [(0 + w, b, [a], [cs])] = some ([a, b], [cs])
  rw [popLoop.eq_def]
  dsimp only
  rw [dif_neg (by
    intro h
    exact hab (List.mem_singleton.mp h).symm), if_pos rfl]
  rfl

theorem nodeStep_line {f : Feature} {cs : List Coord}
    (hgeom : f.geom = Geometry.lineString cs) (ns : List (String × Coord)) :
    nodeStep ns f = ns := by
  unfold nodeStep
  rw [hgeom]

theorem edgeStep_skip {f : Feature} {cs : List Coord}
    (hgeom : f.geom = Geometry.lineString cs)
    (hnd : containsDash (pyLower f.name) = false) (gr : Graph) :
    edgeStep gr f = some gr := by
  unfold edgeStep
  rw [hgeom]
  dsimp only
  rw [if_pos hnd]

theorem build_graph_skip (pre post : List Feature) (f : Feature) (cs : List Coord)
    (hgeom : f.geom = Geometry.lineString cs)
    (hnd : containsDash (pyLower f.name) = false) :
    build_graph (pre ++ f :: post) = build_graph (pre ++ post) := by
  unfold build_graph
  rw [List.foldl_append, List.foldl_append, List.foldl_cons,
    nodeStep_line hgeom]
  rw [List.foldlM_append, List.foldlM_append]
  have hstep : ∀ gr : Graph,
      (f :: post).foldlM edgeStep gr = post.foldlM edgeStep gr := by
    intro gr
    rw [List.foldlM_cons, edgeStep_skip hgeom hnd]
    rfl
  cases hpre : pre.foldlM edgeStep ([] : Graph) with
  | none => rfl
  | some gr =>
    simp only [Option.bind_eq_bind, Option.some_bind]
    rw [hstep gr]

theorem build_graph_single {f : Feature} {cs : List Coord} {a b : String}
    (hgeom : f.geom = Geometry.lineString cs)
    (hdash : containsDash (pyLower f.name) = true)
    (hsplit : pySplitDash (pyLower f.name) = [a, b])
    (hab : a ≠ b) :
    build_graph [f] =
      some ([(a, [(b, polyDist cs, cs)]), (b, [(a, polyDist cs, cs.reverse)])], []) := by
  unfold build_graph
  rw [List.foldl_cons, List.foldl_nil, nodeStep_line hgeom]
  rw [List.foldlM_cons]
  have hstep : edgeStep [] f =
      some [(a, [(b, polyDist cs, cs)]), (b, [(a, polyDist cs, cs.reverse)])] := by
    unfold edgeStep
    rw [hgeom]
    dsimp only
    rw [if_neg (by rw [hdash]; simp), hsplit]
    dsimp only
    have h1 : addEdge [] a (b, polyDist cs, cs) = [(a, [(b, polyDist cs, cs)])] := rfl
    rw [h1]
    have h2 : addEdge [(a, [(b, polyDist cs, cs)])] b (a, polyDist cs, cs.reverse) =
        [(a, [(b, polyDist cs, cs)]), (b, [(a, polyDist cs, cs.reverse)])] := by
      unfold addEdge
      rw [if_neg (fun h => hab h)]
      rfl
    rw [h2]
  rw [hstep]
  rfl

theorem lookupAdj_pair_fst {a b : String} (l1 l2 : List Edge) :
    lookupAdj [(a, l1), (b, l2)] a = l1 := by
  unfold lookupAdj
  simp [List.lookup]

theorem lookupAdj_pair_snd {a b : String} (l1 l2 : List Edge) (hab : a ≠ b) :
    lookupAdj [(a, l1), (b, l2)] b = l2 := by
  unfold lookupAdj
  have h1 : (b == a) = false := beq_eq_false_iff_ne.mpr (Ne.symm hab)
  simp [List.lookup, h1]

/-! ### The claims -/

/-- C9: for all coordinate pairs `a`, `b`, `distance(a, b) = distance(b, a)`
(the haversine great-circle distance is symmetric), and `distance(a, a) = 0`. -/
theorem haversine_symm_and_self_zero :
    (∀ a b : Coord, haversine a b = haversine b a) ∧
    (∀ a : Coord, haversine a a = 0) :=
  ⟨haversine_comm, haversine_self⟩

/-- C4, counterexample: at `b1 = 0`, `b2 = 180` the signed difference computed
by `turn_direction` is exactly `-180`, which lies outside the claimed interval
`(-180, 180]`. -/
theorem signedDiff_boundary_counterexample :
    signedDiff 0 180 = -180 ∧ ¬ (-180 < signedDiff 0 180 ∧ signedDiff 0 180 ≤ 180) := by
  have h : signedDiff 0 180 = -180 := by
    unfold signedDiff pymod
    rw [show (180 - 0 + 540 : ℝ) / 360 = 2 by norm_num,
      show ⌊(2 : ℝ)⌋ = 2 by norm_num]
    norm_num
  refine ⟨h, ?_⟩
  rw [h]
  norm_num

/-- C4 (amended): the signed difference `((b2 - b1 + 540) mod 360) - 180` lies
in `[-180, 180)` (not `(-180, 180]`); the classifier returns "straight" exactly
when its absolute value is below 25, "right" exactly when it is at least 25,
"left" exactly when it is at most -25, and classifies equal bearings as
straight. -/
theorem turn_direction_spec (b1 b2 : ℝ) :
    (-180 ≤ signedDiff b1 b2 ∧ signedDiff b1 b2 < 180) ∧
    (turn_direction b1 b2 = "Go straight" ↔ |signedDiff b1 b2| < 25) ∧
    (turn_direction b1 b2 = "Turn right" ↔ 25 ≤ signedDiff b1 b2) ∧
    (turn_direction b1 b2 = "Turn left" ↔ signedDiff b1 b2 ≤ -25) ∧
    turn_direction b1 b1 = "Go straight" := by
  refine ⟨signedDiff_mem b1 b2, ?_, ?_, ?_, ?_⟩
  · unfold turn_direction
    by_cases h : |signedDiff b1 b2| < 25
    · rw [if_pos h]
      simp [h]
    · rw [if_neg h]
      by_cases h2 : 0 < signedDiff b1 b2
      · rw [if_pos h2]
        simp [show ("Turn right" : String) ≠ "Go straight" by decide, h]
      · rw [if_neg h2]
        simp [show ("Turn left" : String) ≠ "Go straight" by decide, h]
  · unfold turn_direction
    by_cases h : |signedDiff b1 b2| < 25
    · rw [if_pos h]
      constructor
      · intro hh
        exact absurd hh (by decide)
      · intro hh
        exfalso
        rw [abs_lt] at h
        linarith
    · rw [if_neg h]
      by_cases h2 : 0 < signedDiff b1 b2
      · rw [if_pos h2]
        constructor
        · intro _
          rw [not_lt, le_abs] at h
          rcases h with h | h
          · exact h
          · linarith
        · intro _
          rfl
      · rw [if_neg h2]
        constructor
        · intro hh
          exact absurd hh (by decide)
        · intro hh
          exfalso
          push_neg at h2
          linarith
  · unfold turn_direction
    by_cases h : |signedDiff b1 b2| < 25
    · rw [if_pos h]
      constructor
      · intro hh
        exact absurd hh (by decide)
      · intro hh
        exfalso
        rw [abs_lt] at h
        linarith
    · rw [if_neg h]
      by_cases h2 : 0 < signedDiff b1 b2
      · rw [if_pos h2]
        constructor
        · intro hh
          exact absurd hh (by decide)
        · intro hh
          exfalso
          linarith
      · rw [if_neg h2]
        constructor
        · intro _
          rw [not_lt, le_abs] at h
          push_neg at h2
          rcases h with h | h
          · linarith
          · linarith
        · intro _
          rfl
  · unfold turn_direction
    rw [signedDiff_self]
    norm_num

/-- C1: for a finite graph with all-positive edge weights, whenever
`shortest_path` returns a path, that path is realized by a chain of graph
edges whose geometries are the returned geometry list, and the total weight of
that chain is the least weight of any walk in the graph from `start` to `end`
(Dijkstra optimality). -/
theorem shortest_path_dijkstra_optimal (g : Graph) (s e : String) (hpos : PosW g)
    (p : List String) (gs : List (List Coord))
    (hres : shortest_path g s e = some (p, gs)) :
    ∃ es : List Edge, IsWalk g s es e ∧ p = s :: es.map (fun ed => ed.1) ∧
      gs = es.map (fun ed => ed.2.2) ∧
      IsLeast {x : ℝ | ∃ es', IsWalk g s es' e ∧ walkWeight es' = x} (walkWeight es) := by
  have hw : NonnegW g := fun pr hpr ed hed => le_of_lt (hpos pr hpr ed hed)
  obtain ⟨es, h1, h2, h3, -, h5⟩ := popLoop_opt g s e hw [] [(0, s, [], [])]
    (fun _ => 0) (loopInv_init g s e) (optD_init g s) p gs hres
  refine ⟨es, h1, h2, h3, ⟨es, h1, rfl⟩, ?_⟩
  rintro x ⟨es', hw', rfl⟩
  exact h5 es' hw'

/-- C2, counterexample: in the graph with the single adjacency entry
`a -> b`, the name `"b"` is not a graph key, yet `shortest_path(g, "a", "b")`
returns a path rather than the claimed `(None, None)`. -/
theorem shortest_path_unknown_end_counterexample :
    shortest_path [("a", [("b", 1, [((0 : ℝ), 0), (0, 1)])])] "a" "b" =
      some (["a", "b"], [[((0 : ℝ), 0), (0, 1)]]) ∧
    "b" ∉ keys [("a", [("b", 1, [((0 : ℝ), 0), (0, 1)])])] := by
  constructor
  · exact shortest_path_single_edge (by decide) rfl
  · decide

/-- C2 (amended): `shortest_path` is a total function (it cannot raise) and
returns the "no path" signal `(None, None)` exactly when no walk from `start`
to `end` exists in the graph.  Disconnected components are an instance, and so
is an unknown `start` with `start ≠ end`; but `start = end` always returns a
path, and an `end` that appears only as an edge target is reachable even
though it is not a graph key. -/
theorem shortest_path_no_path_iff_unreachable (g : Graph) (s e : String) :
    shortest_path g s e = none ↔ ¬ ∃ es, IsWalk g s es e :=
  shortest_path_none_iff g s e

/-- C8: for every graph and every name `x` that is a known node,
`shortest_path(graph, x, x)` returns the single-node path `[x]` with an empty
geometry list, regardless of what edges the graph contains. -/
theorem shortest_path_self_known (g : Graph) (x : String) (hx : x ∈ keys g) :
    shortest_path g x x = some ([x], []) :=
  shortest_path_self_eq g x

/-- C10: whenever `shortest_path` returns a result, the returned node sequence
contains no repeated node, and the geometry list is exactly one shorter than
the node sequence. -/
theorem shortest_path_simple (g : Graph) (s e : String) (p : List String)
    (gs : List (List Coord)) (h : shortest_path g s e = some (p, gs)) :
    p.Nodup ∧ gs.length + 1 = p.length := by
  obtain ⟨es, hwalk, hp, hgs, hnd⟩ := shortest_path_walk_of_some h
  subst hp
  subst hgs
  refine ⟨hnd, by simp⟩

/-- C5, counterexample: the line feature named `"a-b-c"` does not have the
two-endpoint form, but instead of being skipped it makes `build_graph` fail
(the Python unpacking `a, b = name.split("-")` raises `ValueError`), even
though both `a` and `b` are declared `Point` features. -/
theorem build_graph_multidash_counterexample :
    build_graph [⟨"a", Geometry.point (0, 0)⟩, ⟨"b", Geometry.point (0, 1)⟩,
      ⟨"a-b-c", Geometry.lineString [(0, 0), (0, 1)]⟩] = none := by
  rfl

/-- C5 (amended): `build_graph` skips, without error, every line feature whose
lowercased name contains no `"-"` separator at all; such a feature contributes
nothing (no edge and no node), even when both endpoint names are declared as
`Point` features.  (A line name containing two or more `"-"` is not skipped:
it aborts graph construction, see the counterexample.) -/
theorem build_graph_skips_dashless_line (pre post : List Feature) (f : Feature)
    (cs : List Coord) (hgeom : f.geom = Geometry.lineString cs)
    (hnd : containsDash (pyLower f.name) = false) :
    build_graph (pre ++ f :: post) = build_graph (pre ++ post) :=
  build_graph_skip pre post f cs hgeom hnd

/-- C6: a single well-formed segment `"a-b"` yields exactly two directed
edges — `a -> b` with the polyline as given and `b -> a` with the polyline
reversed, both carrying the same weight — and in the resulting graph the
shortest path from `a` to `b` and from `b` to `a` both exist, traversing those
polylines, with equal total distance. -/
theorem build_graph_round_trip (f : Feature) (cs : List Coord) (a b : String)
    (hgeom : f.geom = Geometry.lineString cs)
    (hdash : containsDash (pyLower f.name) = true)
    (hsplit : pySplitDash (pyLower f.name) = [a, b])
    (hab : a ≠ b) :
    build_graph [f] =
      some ([(a, [(b, polyDist cs, cs)]), (b, [(a, polyDist cs, cs.reverse)])], []) ∧
    shortest_path [(a, [(b, polyDist cs, cs)]), (b, [(a, polyDist cs, cs.reverse)])] a b =
      some ([a, b], [cs]) ∧
    shortest_path [(a, [(b, polyDist cs, cs)]), (b, [(a, polyDist cs, cs.reverse)])] b a =
      some ([b, a], [cs.reverse]) ∧
    polyDist cs.reverse = polyDist cs := by
  refine ⟨build_graph_single hgeom hdash hsplit hab, ?_, ?_, polyDist_reverse cs⟩
  · exact shortest_path_single_edge hab (lookupAdj_pair_fst _ _)
  · exact shortest_path_single_edge (Ne.symm hab) (lookupAdj_pair_snd _ _ hab)

/-- C3: for a path with matching geometry list, whenever segment `i > 0`
departs a node `path[i]` whose name starts with `"j"`, the loop body emits a
`turn`-type instruction naming that junction (with a turn-direction tag)
followed by a separate `straight`-type instruction — the two-element block
holds for every turn classification, including straight — and never a merged
`turn-straight` instruction; the full output contains this block. -/
theorem generate_instructions_junction_split (path : List String)
    (geoms : List (List Coord)) (i : ℕ)
    (hplen : 2 ≤ path.length)
    (hlen : geoms.length + 1 = path.length)
    (hpoly : ∀ cs ∈ geoms, 2 ≤ cs.length)
    (hi0 : 0 < i) (hi : i < geoms.length)
    (hj : pyStartsWith (path.getD i "") "j" = true) :
    ∃ t s_, segStep path geoms i = some [t, s_] ∧
      t.type = "turn" ∧ s_.type = "straight" ∧
      t.type ≠ "turn-straight" ∧ s_.type ≠ "turn-straight" ∧
      (∃ turnStr, t.text = "At " ++ pyUpper (path.getD i "") ++ ", " ++ turnStr ∧
        t.turn_direction = some (pyReplaceSpaceDash (pyLower turnStr))) ∧
      ∃ out pre post, generate_instructions path geoms = some out ∧
        out = pre ++ t :: s_ :: post := by
  obtain ⟨t, s_, hseg, ht, hs, hturn, -⟩ := segStep_junction hlen hpoly hi0 hi hj
  obtain ⟨blocks, hblocks, -, hgen⟩ := generate_instructions_eq (by omega) hlen hpoly
  obtain ⟨pre, post, hsplit⟩ := mapBlocks_decomp hseg _ blocks hblocks
    (List.mem_range.mpr hi)
  refine ⟨t, s_, hseg, ht, hs, by rw [ht]; decide, by rw [hs]; decide, hturn,
    _, startInstr (path.getD 0 "") :: pre, post ++ [destInstr (path.getLastD "")],
    hgen, ?_⟩
  rw [hsplit]
  simp

/-- C7: for a path of length at least 1 with a geometry list one shorter
(polylines having at least two points, as the data model requires),
`generate_instructions` succeeds (no indexing error), returns at least two
instructions, the first of type `start`, the last of type `destination`, every
`distance` field carried by any instruction is a nonnegative integer, and a
single-node path yields exactly the start and destination instructions. -/
theorem generate_instructions_invariants (path : List String)
    (geoms : List (List Coord))
    (hplen : 1 ≤ path.length)
    (hlen : geoms.length + 1 = path.length)
    (hpoly : ∀ cs ∈ geoms, 2 ≤ cs.length) :
    ∃ out, generate_instructions path geoms = some out ∧
      2 ≤ out.length ∧
      (∃ first, out.head? = some first ∧ first.type = "start") ∧
      (∃ last, out.getLast? = some last ∧ last.type = "destination") ∧
      (∀ ins ∈ out, ∀ d, ins.distance = some d → 0 ≤ d) ∧
      (path.length = 1 →
        out = [startInstr (path.getD 0 ""), destInstr (path.getLastD "")]) := by
  obtain ⟨blocks, hblocks, hprop, hgen⟩ := generate_instructions_eq hplen hlen hpoly
  refine ⟨_, hgen, ?_, ?_, ?_, ?_, ?_⟩
  · simp
  · exact ⟨_, rfl, rfl⟩
  · exact ⟨destInstr (path.getLastD ""), List.getLast?_concat _, rfl⟩
  · intro ins hins d hd
    rcases List.mem_cons.mp hins with rfl | hins'
    · simp [startInstr] at hd
    · rcases List.mem_append.mp hins' with h | h
      · exact hprop ins h d hd
      · simp only [List.mem_singleton] at h
        subst h
        simp [destInstr] at hd
  · intro hp1
    have h0 : geoms.length = 0 := by omega
    have hgz : geoms = [] := List.length_eq_zero.mp h0
    subst hgz
    simp only [List.length_nil, List.range_zero] at hblocks
    have hbe : blocks = [] := by
      have : mapBlocks path ([] : List (List Coord)) [] = some [] := rfl
      rw [this] at hblocks
      exact (Option.some_injective _ hblocks).symm
    subst hbe
    rfl

/-! ### Concrete witness data -/

/-- A two-point polyline used by the witnesses. -/
def exPoly : List Coord := [(0, 0), (0, 1)]

/-- A second two-point polyline used by the witnesses. -/
def exPoly2 : List Coord := [(0, 1), (1, 1)]

/-- A one-edge graph used by the witnesses. -/
def exGraph : Graph := [("a", [("b", 1, exPoly)])]

theorem exGraph_path : shortest_path exGraph "a" "b" = some (["a", "b"], [exPoly]) :=
  shortest_path_single_edge (by decide) rfl

theorem shortest_path_dijkstra_optimal_witness :
    ∃ es : List Edge, IsWalk exGraph "a" es "b" ∧
      (["a", "b"] : List String) = "a" :: es.map (fun ed => ed.1) ∧
      ([exPoly] : List (List Coord)) = es.map (fun ed => ed.2.2) ∧
      IsLeast {x : ℝ | ∃ es', IsWalk exGraph "a" es' "b" ∧ walkWeight es' = x}
        (walkWeight es) :=
  shortest_path_dijkstra_optimal exGraph "a" "b"
    (by
      intro pr hpr ed hed
      simp only [exGraph, List.mem_singleton] at hpr
      subst hpr
      simp only [List.mem_singleton] at hed
      subst hed
      exact zero_lt_one)
    ["a", "b"] [exPoly] exGraph_path

theorem shortest_path_self_known_witness :
    shortest_path [("x", ([] : List Edge))] "x" "x" = some (["x"], []) :=
  shortest_path_self_known [("x", ([] : List Edge))] "x" (by decide)

theorem shortest_path_simple_witness :
    (["a", "b"] : List String).Nodup ∧
      ([exPoly] : List (List Coord)).length + 1 = (["a", "b"] : List String).length :=
  shortest_path_simple exGraph "a" "b" ["a", "b"] [exPoly] exGraph_path

theorem build_graph_skips_dashless_line_witness :
    build_graph [⟨"a", Geometry.point (0, 0)⟩, ⟨"b", Geometry.point (0, 1)⟩,
        ⟨"a_b", Geometry.lineString exPoly⟩] =
      build_graph [⟨"a", Geometry.point (0, 0)⟩, ⟨"b", Geometry.point (0, 1)⟩] :=
  build_graph_skips_dashless_line
    [⟨"a", Geometry.point (0, 0)⟩, ⟨"b", Geometry.point (0, 1)⟩] []
    ⟨"a_b", Geometry.lineString exPoly⟩ exPoly rfl (by decide)

theorem build_graph_round_trip_witness :
    build_graph [⟨"a-b", Geometry.lineString exPoly⟩] =
      some ([("a", [("b", polyDist exPoly, exPoly)]),
        ("b", [("a", polyDist exPoly, exPoly.reverse)])], []) ∧
    shortest_path [("a", [("b", polyDist exPoly, exPoly)]),
        ("b", [("a", polyDist exPoly, exPoly.reverse)])] "a" "b" =
      some (["a", "b"], [exPoly]) ∧
    shortest_path [("a", [("b", polyDist exPoly, exPoly)]),
        ("b", [("a", polyDist exPoly, exPoly.reverse)])] "b" "a" =
      some (["b", "a"], [exPoly.reverse]) ∧
    polyDist exPoly.reverse = polyDist exPoly :=
  build_graph_round_trip ⟨"a-b", Geometry.lineString exPoly⟩ exPoly "a" "b"
    rfl (by decide) (by decide) (by decide)

theorem generate_instructions_junction_split_witness :
    ∃ t s_, segStep ["a", "j1", "b"] [exPoly, exPoly2] 1 = some [t, s_] ∧
      t.type = "turn" ∧ s_.type = "straight" ∧
      t.type ≠ "turn-straight" ∧ s_.type ≠ "turn-straight" ∧
      (∃ turnStr, t.text = "At " ++ pyUpper ((["a", "j1", "b"] : List String).getD 1 "") ++
          ", " ++ turnStr ∧
        t.turn_direction = some (pyReplaceSpaceDash (pyLower turnStr))) ∧
      ∃ out pre post, generate_instructions ["a", "j1", "b"] [exPoly, exPoly2] = some out ∧
        out = pre ++ t :: s_ :: post :=
  generate_instructions_junction_split ["a", "j1", "b"] [exPoly, exPoly2] 1
    (by decide) (by decide) (by decide) (by decide) (by decide) (by decide)

theorem generate_instructions_invariants_witness :
    ∃ out, generate_instructions ["a", "b"] [exPoly] = some out ∧
      2 ≤ out.length ∧
      (∃ first, out.head? = some first ∧ first.type = "start") ∧
      (∃ last, out.getLast? = some last ∧ last.type = "destination") ∧
      (∀ ins ∈ out, ∀ d, ins.distance = some d → 0 ≤ d) ∧
      ((["a", "b"] : List String).length = 1 →
        out = [startInstr ((["a", "b"] : List String).getD 0 ""),
          destInstr ((["a", "b"] : List String).getLastD "")]) :=
  generate_instructions_invariants ["a", "b"] [exPoly]
    (by decide) (by decide) (by decide)
